/-
Verification of the concurrency example (`examples/13_concurrency.rs`) of the
rustler teaching repository.

Each vignette of the example is shallowly embedded as an executable transition
system: a state type, an `enabled` predicate and a `step` function over a small
event alphabet, with executions quantified over all valid schedules (lists of
events whose every element is enabled when it fires).  Critical sections that
the Rust code protects with a `Mutex` become single atomic events, channel
sends/receives become queue operations on an explicit FIFO buffer, and thread
joins/terminations become flags in the state.  Pure helpers (`fibonacci`,
chunk sums) are translated directly.

The file is organised as: all definitions first, then all lemmas and the claim
theorems.
-/
import Mathlib

set_option maxRecDepth 4000

namespace Rustler

/-! ## Definitions -/

/-! ### The `fibonacci` function of the Concurrent Calculations vignette

Rust source (lines 322-328):
```
fn fibonacci(n: u32) -> u64 {
    match n {
        0 => 0,
        1 => 1,
        _ => fibonacci(n - 1) + fibonacci(n - 2),
    }
}
```
The result type is `u64`; the embedding uses `Nat` and separately checks that
every value computed in the vignette stays below `2 ^ 64`, so the `u64`
arithmetic never wraps. -/

def fibonacci : Nat → Nat
  | 0 => 0
  | 1 => 1
  | n + 2 => fibonacci (n + 1) + fibonacci n

/-- Tail-recursive evaluator, used only to compute `fibonacci` at the
vignette's inputs without exponential re-evaluation. -/
def fibAux : Nat → Nat → Nat → Nat
  | 0, a, _ => a
  | n + 1, a, b => fibAux n b (a + b)

def fibFast (n : Nat) : Nat := fibAux n 0 1

/-! ### The Concurrent Data Processing vignette

Rust source (lines 206-239): `data = vec![1,...,10]`, `chunk_size = 3`,
one thread per `start in (0..data.len()).step_by(chunk_size)`, each summing
`data[start..min(start+chunk_size, data.len())]` and pushing the sum into a
lock-guarded results vector; the push order depends on the schedule. -/

namespace Chunks

def data : List Int := [1, 2, 3, 4, 5, 6, 7, 8, 9, 10]

def chunk_size : Nat := 3

/-- `(0..data.len()).step_by(chunk_size)`: the multiples of `chunk_size`
below `data.length`. -/
def chunkStarts : List Nat := (List.range data.length).filter (fun k => k % chunk_size == 0)

/-- `data[start..min(start+chunk_size, len)].iter().sum()`. -/
def chunkSum (s : Nat) : Int :=
  ((data.drop s).take (min (s + chunk_size) data.length - s)).sum

/-- The shared results vector after all joins: the chunk sums, pushed in the
order `order` in which the threads won the results lock. -/
def resultsFor (order : List Nat) : List Int := order.map chunkSum

end Chunks

/-! ### The Shared State with Mutex vignette

Rust source (lines 137-157): `counter = Arc::new(Mutex::new(0))`; 5 threads,
each looping 1000 times over
`{ let mut num = counter.lock().unwrap(); *num += 1; }`;
main joins all 5 and reads the counter.

Each lock-guarded increment is a single atomic event.  A state holds the
counter and the number of increments each thread still has to perform; a
schedule is the sequence of thread ids in the order their critical sections
execute.  An entry for a thread that already finished its loop is a no-op
(the real thread performs no further increments). -/

namespace MutexCounter

structure St where
  counter : Nat
  rem : List Nat
deriving DecidableEq, Repr

def step (s : St) (i : Nat) : St :=
  if 0 < s.rem.getD i 0 then
    { counter := s.counter + 1, rem := s.rem.set i (s.rem.getD i 0 - 1) }
  else s

def run (s : St) (tr : List Nat) : St := tr.foldl step s

def init : St := { counter := 0, rem := List.replicate 5 1000 }

/-- A concrete complete schedule: thread 0 performs its 1000 increments, then
thread 1, and so on. -/
def wtrace : List Nat :=
  List.replicate 1000 0 ++ (List.replicate 1000 1 ++ (List.replicate 1000 2 ++
  (List.replicate 1000 3 ++ List.replicate 1000 4)))

end MutexCounter

/-! ### Single-producer channel vignettes

Used twice: for the Channels for Communication vignette (lines 84-99, messages
"Hello"/"from"/"the"/"thread") and for the Producer-Consumer vignette (lines
292-316, items "Item 1".."Item 10").  One producer thread sends a fixed list
of messages in order on an `mpsc::channel`, then its sender is dropped as the
thread's closure ends; the consuming side iterates the receiver until the
channel reports closure.

Events: `send` (producer sends its next message into the FIFO buffer),
`close` (producer's last send done, sender dropped), `recv` (consumer takes
the buffer head), `finish` (consumer's `for received in rx` loop observes
closure and ends).  `recv` is only enabled when a message is buffered —
a blocking receive with an empty, open channel simply waits, which a schedule
cannot observe. -/

namespace SPChan

structure St (α : Type) where
  toSend : List α
  buf : List α
  received : List α
  pdone : Bool
  cdone : Bool
deriving DecidableEq, Repr

inductive Ev where
  | send | close | recv | finish
deriving DecidableEq, Repr

def enabled {α : Type} (s : St α) (e : Ev) : Bool :=
  match e with
  | .send => !s.pdone && !s.toSend.isEmpty
  | .close => !s.pdone && s.toSend.isEmpty
  | .recv => !s.cdone && !s.buf.isEmpty
  | .finish => !s.cdone && s.buf.isEmpty && s.pdone

def step {α : Type} (s : St α) (e : Ev) : St α :=
  match e with
  | .send =>
    match s.toSend with
    | [] => s
    | m :: rest => { s with toSend := rest, buf := s.buf ++ [m] }
  | .close => { s with pdone := true }
  | .recv =>
    match s.buf with
    | [] => s
    | m :: rest => { s with buf := rest, received := s.received ++ [m] }
  | .finish => { s with cdone := true }

def run {α : Type} (s : St α) : List Ev → St α
  | [] => s
  | e :: tr => run (step s e) tr

/-- A schedule is valid when every event is enabled at the point it fires. -/
def valid {α : Type} (s : St α) : List Ev → Bool
  | [] => true
  | e :: tr => enabled s e && valid (step s e) tr

/-- No event is enabled: the execution is maximal. -/
def stuck {α : Type} (s : St α) : Bool :=
  !(enabled s .send || enabled s .close || enabled s .recv || enabled s .finish)

def init {α : Type} (msgs : List α) : St α :=
  { toSend := msgs, buf := [], received := [], pdone := false, cdone := false }

/-- Steps remaining before the vignette must stop; each valid event strictly
decreases it. -/
def fuel {α : Type} (s : St α) : Nat :=
  2 * s.toSend.length + s.buf.length +
    (if s.pdone then 0 else 1) + (if s.cdone then 0 else 1)

/-- The messages of the Channels for Communication vignette. -/
def helloMsgs : List String := ["Hello", "from", "the", "thread"]

/-- The items of the Producer-Consumer vignette: `format!("Item {}", i)` for
`i in 1..=10`. -/
def itemMsgs : List String := (List.range 10).map (fun k => "Item " ++ toString (k + 1))

end SPChan

/-! ### The Worker Pool Pattern vignette

Rust source (lines 163-200): one `mpsc::channel`, its receiver wrapped in
`Arc<Mutex<_>>` and shared by 3 worker threads; each worker loops on
`rx.lock().unwrap().recv()`, processing `Ok(job_id)` and breaking on `Err`.
Main sends job ids 1..=6, then drops the sender, then joins all workers.

Events: `send` (main sends the next job id), `close` (main drops `job_tx`;
in main's program order this happens after all sends, hence only enabled
once `toSend` is empty), `recv w` (worker `w` holds the receiver lock and
its `recv()` returns: it pops the buffer head if a job is buffered,
otherwise — only possible once the channel is closed — it gets `Err` and
terminates).  A blocked `recv` (empty buffer, channel open) has no event.
`processed` records (worker id, job id) in processing order. -/

namespace Pool

structure St where
  toSend : List Nat
  closed : Bool
  buf : List Nat
  alive : List Bool
  processed : List (Nat × Nat)
deriving DecidableEq, Repr

inductive Ev where
  | send
  | close
  | recv (w : Nat)
deriving DecidableEq, Repr

def enabled (s : St) (e : Ev) : Bool :=
  match e with
  | .send => !s.toSend.isEmpty
  | .close => !s.closed && s.toSend.isEmpty
  | .recv w => s.alive.getD w false && (!s.buf.isEmpty || s.closed)

def step (s : St) (e : Ev) : St :=
  match e with
  | .send =>
    match s.toSend with
    | [] => s
    | j :: rest => { s with toSend := rest, buf := s.buf ++ [j] }
  | .close => { s with closed := true }
  | .recv w =>
    match s.buf with
    | [] => { s with alive := s.alive.set w false }
    | j :: rest => { s with buf := rest, processed := s.processed ++ [(w, j)] }

def run (s : St) : List Ev → St
  | [] => s
  | e :: tr => run (step s e) tr

def valid (s : St) : List Ev → Bool
  | [] => true
  | e :: tr => enabled s e && valid (step s e) tr

/-- Every worker's loop has ended. -/
def allDead (s : St) : Bool := s.alive.all (fun b => !b)

/-- No event is enabled (worker ids other than 0, 1, 2 are never alive, so
checking these three suffices). -/
def stuck (s : St) : Bool :=
  !(enabled s .send || enabled s .close ||
    enabled s (.recv 0) || enabled s (.recv 1) || enabled s (.recv 2))

def fuel (s : St) : Nat :=
  2 * s.toSend.length + s.buf.length + (if s.closed then 0 else 1) + s.alive.count true

def init : St :=
  { toSend := [1, 2, 3, 4, 5, 6], closed := false, buf := [],
    alive := [true, true, true], processed := [] }

end Pool

/-! ### The Multiple Producers (fan-in) vignette

Rust source (lines 105-131): one `mpsc::channel`; for `i in 0..3` a clone of
the sender moves into a producer thread sending
`format!("Producer {} message {}", i, j)` for `j in 0..3`; main drops the
original sender (before its receive loop starts, so the model starts with
it already dropped) and then drains the receiver until closure, which
happens once every producer thread has finished and its clone is dropped.

Messages are modelled as pairs `(i, j)`; `producerMsg` renders the string.
Events: `send i` (producer `i` sends its next message), `finish i`
(producer `i`'s loop ends, its sender clone is dropped), `recv` (main
receives the buffer head), `endloop` (main's loop observes closure:
empty buffer and every sender dropped). -/

namespace FanIn

def producerMsg (i j : Nat) : String :=
  "Producer " ++ toString i ++ " message " ++ toString j

structure St where
  rem : List (List Nat)
  pdone : List Bool
  buf : List (Nat × Nat)
  received : List (Nat × Nat)
  cdone : Bool
deriving DecidableEq, Repr

inductive Ev where
  | send (i : Nat)
  | finish (i : Nat)
  | recv
  | endloop
deriving DecidableEq, Repr

def enabled (s : St) (e : Ev) : Bool :=
  match e with
  | .send i => !(s.rem.getD i []).isEmpty
  | .finish i => (s.rem.getD i []).isEmpty && !(s.pdone.getD i true)
  | .recv => !s.cdone && !s.buf.isEmpty
  | .endloop => !s.cdone && s.buf.isEmpty && s.pdone.all (fun b => b)

def step (s : St) (e : Ev) : St :=
  match e with
  | .send i =>
    match s.rem.getD i [] with
    | [] => s
    | j :: rest => { s with rem := s.rem.set i rest, buf := s.buf ++ [(i, j)] }
  | .finish i => { s with pdone := s.pdone.set i true }
  | .recv =>
    match s.buf with
    | [] => s
    | m :: rest => { s with buf := rest, received := s.received ++ [m] }
  | .endloop => { s with cdone := true }

def run (s : St) : List Ev → St
  | [] => s
  | e :: tr => run (step s e) tr

def valid (s : St) : List Ev → Bool
  | [] => true
  | e :: tr => enabled s e && valid (step s e) tr

/-- No event is enabled (producer ids other than 0, 1, 2 never have pending
messages or a live sender clone, so checking these three suffices). -/
def stuck (s : St) : Bool :=
  !(enabled s (.send 0) || enabled s (.send 1) || enabled s (.send 2) ||
    enabled s (.finish 0) || enabled s (.finish 1) || enabled s (.finish 2) ||
    enabled s .recv || enabled s .endloop)

def fuel (s : St) : Nat :=
  2 * (s.rem.map List.length).sum + s.buf.length + s.pdone.count false +
    (if s.cdone then 0 else 1)

def init : St :=
  { rem := [[0, 1, 2], [0, 1, 2], [0, 1, 2]], pdone := [false, false, false],
    buf := [], received := [], cdone := false }

end FanIn

/-! ### The Thread Synchronization (barrier) vignette

Rust source (lines 265-286): `barrier = Arc::new(Barrier::new(3))`; three
threads each do initial work, print "waiting at barrier", call
`barrier.wait()`, and only then print "passed barrier, doing final work".

Per-participant phases: 0 = doing initial work, 1 = arrived at the barrier
(has printed "waiting at barrier" and called `wait()`), 2 = past the barrier
(doing final work).  `arrive i` is participant `i` reaching the barrier;
`pass i` is `barrier.wait()` returning for participant `i`, which the
barrier allows only once all three participants have arrived. -/

namespace BarrierSync

structure St where
  phase : List Nat
deriving DecidableEq, Repr

inductive Ev where
  | arrive (i : Nat)
  | pass (i : Nat)
deriving DecidableEq, Repr

def enabled (s : St) (e : Ev) : Bool :=
  match e with
  | .arrive i => s.phase.getD i 9 == 0
  | .pass i => s.phase.getD i 9 == 1 && s.phase.all (fun q => q != 0)

def step (s : St) (e : Ev) : St :=
  match e with
  | .arrive i => { phase := s.phase.set i 1 }
  | .pass i => { phase := s.phase.set i 2 }

def run (s : St) : List Ev → St
  | [] => s
  | e :: tr => run (step s e) tr

def valid (s : St) : List Ev → Bool
  | [] => true
  | e :: tr => enabled s e && valid (step s e) tr

def init : St := { phase := [0, 0, 0] }

end BarrierSync

/-! ### The Error Handling in Threads vignette and `join().unwrap()`

Rust source (lines 245-259): three tasks, the one with `i == 1` panics
deliberately; the joiner pattern-matches each `handle.join()`, printing the
`Ok` value or "Thread i panicked" on `Err`, and never panics itself.

Everywhere else (e.g. line 32, line 73) the example joins with
`handle.join().unwrap()`: an `Err` from `join` — a panicked task — would
panic the joining (main) thread and abort the process. -/

namespace ErrVig

/-- Join outcome of task `i` in the error-handling vignette: task 1 panics
(`Err` with the panic payload), tasks 0 and 2 succeed. -/
def taskOutcome (i : Nat) : Except String String :=
  if i == 1 then Except.error ("Thread " ++ toString i ++ " panicked!")
  else Except.ok ("Thread " ++ toString i ++ " completed successfully")

/-- The joiner's `match handle.join()` arms (lines 255-258). -/
def reportLine (i : Nat) (r : Except String String) : String :=
  match r with
  | .ok v => "Thread " ++ toString i ++ ": " ++ v
  | .error _ => "Thread " ++ toString i ++ " panicked"

/-- What the error-handling vignette prints for its three tasks, in order. -/
def joinReports : List String :=
  (List.range 3).map (fun i => reportLine i (taskOutcome i))

/-- `handle.join().unwrap()` as used by the other vignettes: `Ok` yields the
value; `Err` re-raises the panic in the joining thread, aborting the
process — modelled as `none`. -/
def unwrapJoin {α : Type} (r : Except String α) : Option α :=
  match r with
  | .ok a => some a
  | .error _ => none

end ErrVig

/-! ### The Multiple Threads (fixed-count spawner) vignette

Rust source (lines 58-77): 3 workers, each returning
`format!("Result from thread {}", i)`; the initiator collects results with
`results.push(handle.join().unwrap())` in a loop — an `Err` join would
panic the initiator and halt collection. -/

namespace MultiVig

/-- Join outcome of worker `i`: in the program as written every worker
returns successfully. -/
def workerOutcome (i : Nat) : Except String String :=
  Except.ok ("Result from thread " ++ toString i)

/-- The collection loop: `join().unwrap()` on each handle in spawn order.
The first `Err` panics the initiator (modelled `none`): no further results
are collected. -/
def collectUnwrap : List (Except String String) → Option (List String)
  | [] => some []
  | r :: rest =>
    match r with
    | .ok v => (collectUnwrap rest).map (fun l => v :: l)
    | .error _ => none

end MultiVig

end Rustler

namespace Rustler

/-! ## Lemmas and claim theorems -/

/-! ### Generic list helper lemmas -/

theorem getD_set_ne {α : Type} (l : List α) (i j : Nat) (v d : α) (h : i ≠ j) :
    (l.set i v).getD j d = l.getD j d := by
  induction l generalizing i j with
  | nil => simp [List.set]
  | cons a t ih =>
    cases i with
    | zero =>
      cases j with
      | zero => exact absurd rfl h
      | succ j => simp [List.set, List.getD]
    | succ i =>
      cases j with
      | zero => simp [List.set, List.getD]
      | succ j =>
        simp only [List.set, List.getD_cons_succ]
        exact ih i j (fun hh => h (by omega))

theorem getD_set_self {α : Type} (l : List α) (i : Nat) (v d : α) (h : i < l.length) :
    (l.set i v).getD i d = v := by
  induction l generalizing i with
  | nil => simp at h
  | cons a t ih =>
    cases i with
    | zero => simp [List.set, List.getD]
    | succ i =>
      simp only [List.set, List.getD_cons_succ]
      exact ih i (by simpa using h)

theorem set_getD_self {α : Type} (l : List α) (i : Nat) (d : α) :
    l.set i (l.getD i d) = l := by
  induction l generalizing i with
  | nil => rfl
  | cons a t ih =>
    cases i with
    | zero => simp [List.set, List.getD]
    | succ i =>
      simp only [List.set, List.getD_cons_succ]
      exact congrArg (a :: ·) (ih i)

theorem sum_set_pred (l : List Nat) (i : Nat) (h : 0 < l.getD i 0) :
    (l.set i (l.getD i 0 - 1)).sum + 1 = l.sum := by
  induction l generalizing i with
  | nil => simp [List.getD] at h
  | cons a t ih =>
    cases i with
    | zero =>
      simp only [List.getD_cons_zero] at h
      simp only [List.getD_cons_zero, List.set, List.sum_cons]
      omega
    | succ i =>
      simp only [List.getD_cons_succ] at h
      simp only [List.getD_cons_succ, List.set, List.sum_cons]
      have := ih i h
      omega

theorem count_set_false (l : List Bool) (w : Nat) (h : l.getD w false = true) :
    (l.set w false).count true + 1 = l.count true := by
  induction l generalizing w with
  | nil => simp [List.getD] at h
  | cons a t ih =>
    cases w with
    | zero =>
      simp only [List.getD_cons_zero] at h
      subst h
      simp [List.set, List.count_cons]
    | succ w =>
      simp only [List.getD_cons_succ] at h
      simp only [List.set, List.count_cons]
      have := ih w h
      omega

/-! ### Fibonacci lemmas -/

theorem fibAux_eq (n : Nat) : ∀ k, fibAux n (fibonacci k) (fibonacci (k + 1)) = fibonacci (k + n) := by
  induction n with
  | zero => intro k; rfl
  | succ n ih =>
    intro k
    have hstep : fibonacci k + fibonacci (k + 1) = fibonacci (k + 2) := by
      simp [fibonacci, Nat.add_comm]
    calc fibAux (n + 1) (fibonacci k) (fibonacci (k + 1))
        = fibAux n (fibonacci (k + 1)) (fibonacci k + fibonacci (k + 1)) := rfl
      _ = fibAux n (fibonacci (k + 1)) (fibonacci (k + 2)) := by rw [hstep]
      _ = fibonacci (k + 1 + n) := ih (k + 1)
      _ = fibonacci (k + (n + 1)) := by ring_nf

theorem fibFast_eq (n : Nat) : fibFast n = fibonacci n := by
  have := fibAux_eq n 0
  simpa [fibFast, fibonacci] using this

theorem fibonacci_le_succ (n : Nat) : fibonacci n ≤ fibonacci (n + 1) := by
  induction n using Nat.strong_induction_on with
  | _ n ih =>
    match n with
    | 0 => simp [fibonacci]
    | 1 => simp [fibonacci]
    | n + 2 =>
      have h1 := ih (n + 1) (by omega)
      simp only [fibonacci]
      omega

theorem fibonacci_mono {m n : Nat} (h : m ≤ n) : fibonacci m ≤ fibonacci n := by
  induction n with
  | zero => simp [Nat.le_zero.mp h]
  | succ n ih =>
    rcases Nat.lt_or_ge m (n + 1) with h' | h'
    · exact le_trans (ih (by omega)) (fibonacci_le_succ n)
    · have : m = n + 1 := by omega
      simp [this]

/-! ### Mutex counter lemmas -/

namespace MutexCounter

theorem step_invariant (s : St) (i : Nat) :
    (step s i).counter + (step s i).rem.sum = s.counter + s.rem.sum := by
  unfold step
  by_cases h : 0 < s.rem.getD i 0
  · rw [if_pos h]
    have := sum_set_pred s.rem i h
    show s.counter + 1 + (s.rem.set i (s.rem.getD i 0 - 1)).sum = s.counter + s.rem.sum
    omega
  · rw [if_neg h]

theorem run_invariant (tr : List Nat) (s : St) :
    (run s tr).counter + (run s tr).rem.sum = s.counter + s.rem.sum := by
  induction tr generalizing s with
  | nil => rfl
  | cons i tr ih =>
    have h1 := ih (step s i)
    have h2 := step_invariant s i
    simpa [run, List.foldl] using h1.trans h2

theorem run_append (s : St) (t₁ t₂ : List Nat) :
    run s (t₁ ++ t₂) = run (run s t₁) t₂ := by
  simp [run, List.foldl_append]

/-- Running `n` consecutive critical sections of thread `i` when thread `i`
has exactly `n` increments left. -/
theorem drain_run (n : Nat) : ∀ (s : St) (i : Nat), s.rem.getD i 0 = n →
    run s (List.replicate n i) = { counter := s.counter + n, rem := s.rem.set i 0 } := by
  induction n with
  | zero =>
    intro s i h
    have : s.rem.set i 0 = s.rem := by
      conv_rhs => rw [← set_getD_self s.rem i 0]
      rw [h]
    simp [run, List.replicate, this]
  | succ n ih =>
    intro s i h
    have hpos : 0 < s.rem.getD i 0 := by omega
    have hlt : i < s.rem.length := by
      by_contra hge
      have : s.rem.getD i 0 = 0 := by
        simp [List.getD_eq_getElem?_getD, List.getElem?_eq_none (by omega : s.rem.length ≤ i)]
      omega
    have hstep : step s i = { counter := s.counter + 1, rem := s.rem.set i n } := by
      unfold step
      rw [if_pos hpos, h]
      norm_num
    have hgd : (s.rem.set i n).getD i 0 = n := getD_set_self s.rem i n 0 hlt
    calc run s (List.replicate (n + 1) i)
        = run (step s i) (List.replicate n i) := rfl
      _ = { counter := s.counter + 1 + n, rem := (s.rem.set i n).set i 0 } := by
          rw [hstep]; exact ih _ i hgd
      _ = { counter := s.counter + (n + 1), rem := s.rem.set i 0 } := by
          rw [List.set_set]; congr 1; omega

theorem wtrace_drains : (run init wtrace).rem.sum = 0 := by
  have e0 : run init (List.replicate 1000 0) =
      { counter := 1000, rem := [0, 1000, 1000, 1000, 1000] } := by
    have := drain_run 1000 init 0 (by rfl)
    exact this.trans (by rfl)
  have e1 : run { counter := 1000, rem := [0, 1000, 1000, 1000, 1000] }
      (List.replicate 1000 1) =
      { counter := 2000, rem := [0, 0, 1000, 1000, 1000] } := by
    have := drain_run 1000 { counter := 1000, rem := [0, 1000, 1000, 1000, 1000] } 1 (by rfl)
    exact this.trans (by rfl)
  have e2 : run { counter := 2000, rem := [0, 0, 1000, 1000, 1000] }
      (List.replicate 1000 2) =
      { counter := 3000, rem := [0, 0, 0, 1000, 1000] } := by
    have := drain_run 1000 { counter := 2000, rem := [0, 0, 1000, 1000, 1000] } 2 (by rfl)
    exact this.trans (by rfl)
  have e3 : run { counter := 3000, rem := [0, 0, 0, 1000, 1000] }
      (List.replicate 1000 3) =
      { counter := 4000, rem := [0, 0, 0, 0, 1000] } := by
    have := drain_run 1000 { counter := 3000, rem := [0, 0, 0, 1000, 1000] } 3 (by rfl)
    exact this.trans (by rfl)
  have e4 : run { counter := 4000, rem := [0, 0, 0, 0, 1000] }
      (List.replicate 1000 4) =
      { counter := 5000, rem := [0, 0, 0, 0, 0] } := by
    have := drain_run 1000 { counter := 4000, rem := [0, 0, 0, 0, 1000] } 4 (by rfl)
    exact this.trans (by rfl)
  show (run init (_ ++ _)).rem.sum = 0
  rw [run_append, e0, run_append, e1, run_append, e2, run_append, e3, e4]
  rfl

end MutexCounter

/-! ### Single-producer channel lemmas -/

namespace SPChan

variable {α : Type}

/-- The execution invariant: the channel never loses, duplicates or reorders
messages, the producer flag implies all messages were sent, and the consumer
flag implies the channel was drained and closed first. -/
def Inv (M : List α) (s : St α) : Prop :=
  s.received ++ s.buf ++ s.toSend = M ∧
  (s.pdone = true → s.toSend = []) ∧
  (s.cdone = true → s.buf = [] ∧ s.pdone = true)

theorem chanInv_init (M : List α) : Inv M (init M) := by
  refine ⟨by simp [init], by simp [init], by simp [init]⟩

theorem chanInv_step {M : List α} {s : St α} {e : Ev}
    (hI : Inv M s) (he : enabled s e = true) : Inv M (step s e) := by
  obtain ⟨h1, h2, h3⟩ := hI
  cases e with
  | send =>
    simp only [enabled, Bool.and_eq_true, Bool.not_eq_true'] at he
    obtain ⟨hp, hts⟩ := he
    cases hts' : s.toSend with
    | nil => rw [hts'] at hts; simp at hts
    | cons m rest =>
      rw [hts'] at h1
      refine ⟨?_, ?_, ?_⟩
      · simp only [step, hts']
        simpa [List.append_assoc] using h1
      · intro hpd
        simp only [step, hts'] at hpd
        rw [hp] at hpd
        exact absurd hpd (by simp)
      · intro hcd
        simp only [step, hts'] at hcd
        have := (h3 hcd).2
        rw [hp] at this
        exact absurd this (by simp)
  | close =>
    simp only [enabled, Bool.and_eq_true, Bool.not_eq_true'] at he
    obtain ⟨hp, hts⟩ := he
    have hts' : s.toSend = [] := by
      cases h : s.toSend with
      | nil => rfl
      | cons m rest => rw [h] at hts; simp at hts
    refine ⟨by simpa [step] using h1, by intro _; simpa [step] using hts', ?_⟩
    intro hcd
    simp only [step] at hcd
    exact ⟨(h3 hcd).1, rfl⟩
  | recv =>
    simp only [enabled, Bool.and_eq_true, Bool.not_eq_true'] at he
    obtain ⟨hc, hbf⟩ := he
    cases hbf' : s.buf with
    | nil => rw [hbf'] at hbf; simp at hbf
    | cons m rest =>
      rw [hbf'] at h1
      refine ⟨?_, ?_, ?_⟩
      · simp only [step, hbf']
        simpa [List.append_assoc] using h1
      · intro hpd
        simp only [step, hbf'] at hpd ⊢
        exact h2 hpd
      · intro hcd
        simp only [step, hbf'] at hcd
        rw [hc] at hcd
        exact absurd hcd (by simp)
  | finish =>
    simp only [enabled, Bool.and_eq_true, Bool.not_eq_true'] at he
    obtain ⟨⟨hc, hbf⟩, hpd⟩ := he
    have hbf' : s.buf = [] := by
      cases h : s.buf with
      | nil => rfl
      | cons m rest => rw [h] at hbf; simp at hbf
    exact ⟨by simpa [step] using h1, by intro _; exact h2 hpd, by intro _; exact ⟨hbf', hpd⟩⟩

theorem chanInv_run {M : List α} {s : St α} {tr : List Ev}
    (hI : Inv M s) (hv : valid s tr = true) : Inv M (run s tr) := by
  induction tr generalizing s with
  | nil => exact hI
  | cons e tr ih =>
    simp only [valid, Bool.and_eq_true] at hv
    exact ih (chanInv_step hI hv.1) hv.2

/-- In a maximal state the producer has sent everything and dropped its
sender, the consumer's loop has ended, and the consumer holds exactly the
sent messages, in order. -/
theorem chan_stuck_spec {M : List α} {s : St α} (hI : Inv M s) (hs : stuck s = true) :
    s.received = M ∧ s.pdone = true ∧ s.cdone = true := by
  obtain ⟨h1, h2, h3⟩ := hI
  simp only [stuck, Bool.not_eq_true', Bool.or_eq_false_iff] at hs
  obtain ⟨⟨⟨hsend, hclose⟩, hrecv⟩, hfin⟩ := hs
  have hpd : s.pdone = true := by
    by_contra hp
    have hp' : s.pdone = false := by simpa using hp
    cases h : s.toSend with
    | nil =>
      rw [enabled, hp', h] at hclose
      simp at hclose
    | cons m rest =>
      rw [enabled, hp', h] at hsend
      simp at hsend
  have hcd : s.cdone = true := by
    by_contra hc
    have hc' : s.cdone = false := by simpa using hc
    cases h : s.buf with
    | nil =>
      rw [enabled, hc', h, hpd] at hfin
      simp at hfin
    | cons m rest =>
      rw [enabled, hc', h] at hrecv
      simp at hrecv
  have hts : s.toSend = [] := h2 hpd
  have hbf : s.buf = [] := (h3 hcd).1
  rw [hts, hbf] at h1
  simp at h1
  exact ⟨h1, hpd, hcd⟩

theorem chan_fuel_step {s : St α} {e : Ev} (he : enabled s e = true) :
    fuel (step s e) < fuel s := by
  cases e with
  | send =>
    simp only [enabled, Bool.and_eq_true, Bool.not_eq_true'] at he
    obtain ⟨hp, hts⟩ := he
    cases hts' : s.toSend with
    | nil => rw [hts'] at hts; simp at hts
    | cons m rest => simp [step, fuel, hts']; omega
  | close =>
    simp only [enabled, Bool.and_eq_true, Bool.not_eq_true'] at he
    simp [step, fuel, he.1]
  | recv =>
    simp only [enabled, Bool.and_eq_true, Bool.not_eq_true'] at he
    obtain ⟨hc, hbf⟩ := he
    cases hbf' : s.buf with
    | nil => rw [hbf'] at hbf; simp at hbf
    | cons m rest => simp [step, fuel, hbf']
  | finish =>
    simp only [enabled, Bool.and_eq_true, Bool.not_eq_true'] at he
    simp [step, fuel, he.1]

/-- Valid schedules are no longer than the initial fuel: the vignette cannot
run forever. -/
theorem chan_valid_length {s : St α} {tr : List Ev} (hv : valid s tr = true) :
    tr.length ≤ fuel s := by
  induction tr generalizing s with
  | nil => simp
  | cons e tr ih =>
    simp only [valid, Bool.and_eq_true] at hv
    have h1 := ih hv.2
    have h2 := chan_fuel_step hv.1
    simp only [List.length_cons]
    omega

end SPChan

/-! ### Worker pool lemmas -/

namespace Pool

/-- Lists of booleans of length 3 whose three positions read `false` are
`[false, false, false]`. -/
theorem eq_three_false (l : List Bool) (hl : l.length = 3)
    (h0 : l.getD 0 false = false) (h1 : l.getD 1 false = false)
    (h2 : l.getD 2 false = false) : l = [false, false, false] := by
  cases l with
  | nil => simp at hl
  | cons a l1 =>
    cases l1 with
    | nil => simp at hl
    | cons b l2 =>
      cases l2 with
      | nil => simp at hl
      | cons c l3 =>
        cases l3 with
        | cons d t =>
          simp only [List.length_cons] at hl
          omega
        | nil =>
          simp only [List.getD_cons_zero, List.getD_cons_succ] at h0 h1 h2
          simp [h0, h1, h2]

/-- The execution invariant of the worker pool: jobs flow without loss,
duplication or reordering from `toSend` through the buffer into `processed`;
the channel closes only after all sends; all workers dead implies the
channel was closed and drained; only workers 0, 1, 2 process jobs. -/
def Inv (s : St) : Prop :=
  s.processed.map Prod.snd ++ s.buf ++ s.toSend = [1, 2, 3, 4, 5, 6] ∧
  s.alive.length = 3 ∧
  (s.closed = true → s.toSend = []) ∧
  (allDead s = true → s.closed = true ∧ s.buf = []) ∧
  (∀ p ∈ s.processed, p.1 < 3)

theorem poolInv_init : Inv init := by
  refine ⟨rfl, rfl, ?_, ?_, ?_⟩ <;> simp [init, allDead]

theorem poolInv_step {s : St} {e : Ev} (hI : Inv s) (he : enabled s e = true) :
    Inv (step s e) := by
  obtain ⟨h1, h2, h3, h4, h5⟩ := hI
  cases e with
  | send =>
    simp only [enabled, Bool.not_eq_true'] at he
    cases hts : s.toSend with
    | nil => rw [hts] at he; simp at he
    | cons j rest =>
      rw [hts] at h1
      have hnc : s.closed = false := by
        by_contra hc
        have hc' : s.closed = true := by simpa using hc
        simp [h3 hc'] at hts
      have hnd : allDead s = false := by
        by_contra hd
        have hd' : allDead s = true := by simpa using hd
        exact absurd (h4 hd').1 (by simp [hnc])
      refine ⟨?_, ?_, ?_, ?_, ?_⟩
      · simp only [step, hts]
        simpa [List.append_assoc] using h1
      · simpa [step, hts] using h2
      · intro hc
        simp only [step, hts] at hc
        rw [hnc] at hc
        cases hc
      · intro hd
        have hd' : allDead s = true := by simpa [step, hts, allDead] using hd
        exact absurd hd' (by simp [hnd])
      · intro p hp
        simp only [step, hts] at hp
        exact h5 p hp
  | close =>
    simp only [enabled, Bool.and_eq_true, Bool.not_eq_true'] at he
    obtain ⟨hc, htse⟩ := he
    have hts : s.toSend = [] := by
      cases h : s.toSend with
      | nil => rfl
      | cons a b => rw [h] at htse; simp at htse
    refine ⟨by simpa [step] using h1, by simpa [step] using h2,
      by intro _; simpa [step] using hts, ?_,
      by intro p hp; simp only [step] at hp; exact h5 p hp⟩
    intro hd
    have hd' : allDead s = true := by simpa [step, allDead] using hd
    exact ⟨rfl, (h4 hd').2⟩
  | recv w =>
    simp only [enabled, Bool.and_eq_true] at he
    obtain ⟨hw, hbc⟩ := he
    have hw3 : w < 3 := by
      by_contra hge
      have hlen : s.alive.length ≤ w := by omega
      have hnone : s.alive[w]? = none := List.getElem?_eq_none hlen
      simp [List.getD_eq_getElem?_getD, hnone] at hw
    cases hbf : s.buf with
    | nil =>
      have hcl : s.closed = true := by
        rw [hbf] at hbc
        simpa using hbc
      refine ⟨?_, ?_, ?_, ?_, ?_⟩
      · simp only [step, hbf]
        rw [hbf] at h1
        simpa using h1
      · simpa [step, hbf] using h2
      · intro hc
        simp only [step, hbf] at hc ⊢
        exact h3 hc
      · intro _
        constructor
        · simp only [step, hbf]
          exact hcl
        · simp [step, hbf]
      · intro p hp
        simp only [step, hbf] at hp
        exact h5 p hp
    | cons j rest =>
      rw [hbf] at h1
      have hnd : allDead s = false := by
        by_contra hd
        have hd' : allDead s = true := by simpa using hd
        have := (h4 hd').2
        rw [hbf] at this
        cases this
      refine ⟨?_, ?_, ?_, ?_, ?_⟩
      · simp only [step, hbf, List.map_append]
        simpa [List.append_assoc] using h1
      · simpa [step, hbf] using h2
      · intro hc
        simp only [step, hbf] at hc ⊢
        exact h3 hc
      · intro hd
        have hd' : allDead s = true := by simpa [step, hbf, allDead] using hd
        exact absurd hd' (by simp [hnd])
      · intro p hp
        simp only [step, hbf, List.mem_append, List.mem_singleton] at hp
        rcases hp with hp | hp
        · exact h5 p hp
        · subst hp
          exact hw3

theorem poolInv_run {s : St} {tr : List Ev} (hI : Inv s) (hv : valid s tr = true) :
    Inv (run s tr) := by
  induction tr generalizing s with
  | nil => exact hI
  | cons e tr ih =>
    simp only [valid, Bool.and_eq_true] at hv
    exact ih (poolInv_step hI hv.1) hv.2

/-- In a maximal reachable state the six jobs were processed in send order,
each by one of the three workers, and all workers have terminated. -/
theorem pool_stuck_spec {s : St} (hI : Inv s) (hs : stuck s = true) :
    s.processed.map Prod.snd = [1, 2, 3, 4, 5, 6] ∧
    s.alive = [false, false, false] ∧
    ∀ p ∈ s.processed, p.1 < 3 := by
  obtain ⟨h1, h2, h3, h4, h5⟩ := hI
  simp only [stuck, Bool.not_eq_true', Bool.or_eq_false_iff] at hs
  obtain ⟨⟨⟨⟨hsend, hclose⟩, hr0⟩, hr1⟩, hr2⟩ := hs
  have hts : s.toSend = [] := by
    rw [enabled] at hsend
    cases h : s.toSend with
    | nil => rfl
    | cons a b => rw [h] at hsend; simp at hsend
  have hcl : s.closed = true := by
    rw [enabled, hts] at hclose
    simpa using hclose
  have hg0 : s.alive.getD 0 false = false := by
    rw [enabled, hcl] at hr0
    simpa using hr0
  have hg1 : s.alive.getD 1 false = false := by
    rw [enabled, hcl] at hr1
    simpa using hr1
  have hg2 : s.alive.getD 2 false = false := by
    rw [enabled, hcl] at hr2
    simpa using hr2
  have halive := eq_three_false s.alive h2 hg0 hg1 hg2
  have hdead : allDead s = true := by simp [allDead, halive]
  have hbf := (h4 hdead).2
  rw [hts, hbf] at h1
  simp only [List.append_nil] at h1
  exact ⟨h1, halive, h5⟩

theorem pool_fuel_step {s : St} {e : Ev} (he : enabled s e = true) :
    fuel (step s e) < fuel s := by
  cases e with
  | send =>
    simp only [enabled, Bool.not_eq_true'] at he
    cases hts : s.toSend with
    | nil => rw [hts] at he; simp at he
    | cons j rest =>
      simp [step, hts, fuel]
      omega
  | close =>
    simp only [enabled, Bool.and_eq_true, Bool.not_eq_true'] at he
    simp only [step, fuel, he.1]
    simp
  | recv w =>
    simp only [enabled, Bool.and_eq_true] at he
    obtain ⟨hw, hbc⟩ := he
    have hw' : s.alive.getD w false = true := by
      simpa [List.getD_eq_getElem?_getD] using hw
    cases hbf : s.buf with
    | nil =>
      have hcount := count_set_false s.alive w hw'
      simp [step, hbf, fuel]
      omega
    | cons j rest =>
      simp [step, hbf, fuel]

theorem pool_valid_length {s : St} {tr : List Ev} (hv : valid s tr = true) :
    tr.length ≤ fuel s := by
  induction tr generalizing s with
  | nil => simp
  | cons e tr ih =>
    simp only [valid, Bool.and_eq_true] at hv
    have h1 := ih hv.2
    have h2 := pool_fuel_step hv.1
    simp only [List.length_cons]
    omega

end Pool

/-! ### Fan-in lemmas -/

namespace FanIn

/-- A list of length 3 is determined by its three reads. -/
theorem list3_of_getD {α : Type} (l : List α) (hl : l.length = 3) (d : α)
    (v0 v1 v2 : α) (h0 : l.getD 0 d = v0) (h1 : l.getD 1 d = v1)
    (h2 : l.getD 2 d = v2) : l = [v0, v1, v2] := by
  cases l with
  | nil => simp at hl
  | cons a l1 =>
    cases l1 with
    | nil => simp at hl
    | cons b l2 =>
      cases l2 with
      | nil => simp at hl
      | cons c l3 =>
        cases l3 with
        | cons e t =>
          simp only [List.length_cons] at hl
          omega
        | nil =>
          simp only [List.getD_cons_zero, List.getD_cons_succ] at h0 h1 h2
          simp [h0, h1, h2]

theorem all_getD_true (l : List Bool) (hall : l.all (fun b => b) = true) :
    ∀ (i : Nat) (d : Bool), i < l.length → l.getD i d = true := by
  induction l with
  | nil => intro i d hi; simp at hi
  | cons a t ih =>
    simp only [List.all_cons, Bool.and_eq_true] at hall
    intro i d hi
    cases i with
    | zero => simpa using hall.1
    | succ i =>
      simp only [List.getD_cons_succ]
      exact ih hall.2 i d (by simpa using hi)

theorem all_set_true (l : List Bool) (i : Nat) (hall : l.all (fun b => b) = true) :
    (l.set i true).all (fun b => b) = true := by
  induction l generalizing i with
  | nil => simp
  | cons a t ih =>
    simp only [List.all_cons, Bool.and_eq_true] at hall
    cases i with
    | zero => simp [List.set, hall.2]
    | succ i =>
      simp only [List.set, List.all_cons, Bool.and_eq_true]
      exact ⟨hall.1, ih i hall.2⟩

theorem sum_map_length_set (l : List (List Nat)) (i : Nat) (j : Nat)
    (rest : List Nat) (h : l.getD i [] = j :: rest) :
    ((l.set i rest).map List.length).sum + 1 = (l.map List.length).sum := by
  induction l generalizing i with
  | nil => simp [List.getD] at h
  | cons a t ih =>
    cases i with
    | zero =>
      simp only [List.getD_cons_zero] at h
      subst h
      simp [List.set]
      omega
    | succ i =>
      simp only [List.getD_cons_succ] at h
      simp only [List.set, List.map_cons, List.sum_cons]
      have := ih i h
      omega

theorem count_false_set_true (l : List Bool) (i : Nat) (h : l.getD i true = false) :
    (l.set i true).count false + 1 = l.count false := by
  induction l generalizing i with
  | nil => simp [List.getD] at h
  | cons a t ih =>
    cases i with
    | zero =>
      simp only [List.getD_cons_zero] at h
      subst h
      simp [List.set, List.count_cons]
    | succ i =>
      simp only [List.getD_cons_succ] at h
      simp only [List.set, List.count_cons]
      have := ih i h
      omega

/-- The execution invariant of the fan-in vignette. -/
def Inv (s : St) : Prop :=
  (∀ i, i < 3 →
    s.received.filter (fun p => p.1 == i) ++ s.buf.filter (fun p => p.1 == i) ++
      (s.rem.getD i []).map (fun j => (i, j)) = [(i, 0), (i, 1), (i, 2)]) ∧
  s.rem.length = 3 ∧
  s.pdone.length = 3 ∧
  (∀ i, i < 3 → s.pdone.getD i true = true → s.rem.getD i [] = []) ∧
  (s.cdone = true → s.buf = [] ∧ s.pdone.all (fun b => b) = true) ∧
  s.received.length + s.buf.length + (s.rem.map List.length).sum = 9 ∧
  (∀ p ∈ s.buf, p.1 < 3)

theorem fanInv_init : Inv init := by
  refine ⟨?_, rfl, rfl, ?_, ?_, rfl, ?_⟩
  · intro i hi
    interval_cases i <;> rfl
  · intro i hi hp
    interval_cases i <;> simp [init, List.getD] at hp
  · intro h
    simp [init] at h
  · intro p hp
    simp [init] at hp

theorem fanInv_step {s : St} {e : Ev} (hI : Inv s) (he : enabled s e = true) :
    Inv (step s e) := by
  obtain ⟨h1, h2, h3, h4, h5, h6, h7⟩ := hI
  cases e with
  | send i =>
    simp only [enabled, Bool.not_eq_true'] at he
    cases hri : s.rem.getD i [] with
    | nil => rw [hri] at he; simp at he
    | cons j rest =>
      have hi3 : i < 3 := by
        by_contra hge
        have hlen : s.rem.length ≤ i := by omega
        have hnone : s.rem[i]? = none := List.getElem?_eq_none hlen
        rw [List.getD_eq_getElem?_getD, hnone] at hri
        cases hri
      have hib : i < s.rem.length := by omega
      have hstep : step s (.send i) =
          { s with rem := s.rem.set i rest, buf := s.buf ++ [(i, j)] } := by
        simp only [step, hri]
      rw [hstep]
      refine ⟨?_, ?_, ?_, ?_, ?_, ?_, ?_⟩
      · intro i' hi'
        by_cases hii : i = i'
        · subst hii
          show List.filter _ s.received ++ List.filter _ (s.buf ++ [(i, j)]) ++
            List.map _ ((s.rem.set i rest).getD i []) = _
          rw [getD_set_self s.rem i rest [] hib, List.filter_append]
          have hfm : List.filter (fun p => p.1 == i) [(i, j)] = [(i, j)] := by simp
          rw [hfm]
          have hold := h1 i hi'
          rw [hri] at hold
          simp only [List.map_cons] at hold
          simp only [List.append_assoc, List.singleton_append,
            List.cons_append] at hold ⊢
          exact hold
        · show List.filter _ s.received ++ List.filter _ (s.buf ++ [(i, j)]) ++
            List.map _ ((s.rem.set i rest).getD i' []) = _
          rw [getD_set_ne s.rem i i' rest [] hii, List.filter_append]
          have hfm : List.filter (fun p => p.1 == i') [(i, j)] = [] := by
            simp [hii]
          rw [hfm, List.append_nil]
          exact h1 i' hi'
      · simpa using h2
      · exact h3
      · intro i'' hi'' hp
        show (s.rem.set i rest).getD i'' [] = []
        by_cases hii : i = i''
        · subst hii
          have := h4 i hi'' hp
          rw [hri] at this
          cases this
        · rw [getD_set_ne s.rem i i'' rest [] hii]
          exact h4 i'' hi'' hp
      · intro hc
        have hall := (h5 hc).2
        have hgd := all_getD_true s.pdone hall i true (by omega)
        have := h4 i hi3 hgd
        rw [hri] at this
        cases this
      · show s.received.length + (s.buf ++ [(i, j)]).length +
          ((s.rem.set i rest).map List.length).sum = 9
        have := sum_map_length_set s.rem i j rest hri
        simp only [List.length_append, List.length_singleton]
        omega
      · intro p hp
        simp only [List.mem_append, List.mem_singleton] at hp
        rcases hp with hp | hp
        · exact h7 p hp
        · subst hp
          exact hi3
  | finish i =>
    simp only [enabled, Bool.and_eq_true, Bool.not_eq_true'] at he
    obtain ⟨hre, hpd⟩ := he
    have hri : s.rem.getD i [] = [] := by
      cases h : s.rem.getD i [] with
      | nil => rfl
      | cons a b => rw [h] at hre; simp at hre
    have hstep : step s (.finish i) = { s with pdone := s.pdone.set i true } := rfl
    rw [hstep]
    refine ⟨fun i' hi' => h1 i' hi', h2, by simpa using h3, ?_, ?_, h6,
      fun p hp => h7 p hp⟩
    · intro i'' hi'' hp
      show s.rem.getD i'' [] = []
      by_cases hii : i = i''
      · subst hii
        exact hri
      · rw [getD_set_ne s.pdone i i'' true true hii] at hp
        exact h4 i'' hi'' hp
    · intro hc
      exact ⟨(h5 hc).1, all_set_true s.pdone i (h5 hc).2⟩
  | recv =>
    simp only [enabled, Bool.and_eq_true, Bool.not_eq_true'] at he
    obtain ⟨hc, hbe⟩ := he
    cases hbf : s.buf with
    | nil => rw [hbf] at hbe; simp at hbe
    | cons m rest =>
      have hstep : step s .recv =
          { s with buf := rest, received := s.received ++ [m] } := by
        simp only [step, hbf]
      rw [hstep]
      refine ⟨?_, h2, h3, fun i'' hi'' hp => h4 i'' hi'' hp, ?_, ?_, ?_⟩
      · intro i' hi'
        have hold := h1 i' hi'
        rw [hbf] at hold
        show List.filter _ (s.received ++ [m]) ++ List.filter _ rest ++
          List.map _ (s.rem.getD i' []) = _
        rw [List.filter_append]
        cases hm : (m.1 == i') with
        | true =>
          have hsplit : List.filter (fun p => p.1 == i') (m :: rest) =
              m :: List.filter (fun p => p.1 == i') rest := by
            simp [List.filter_cons, hm]
          have hfm : List.filter (fun p => p.1 == i') [m] = [m] := by
            simp [List.filter_cons, hm]
          rw [hsplit] at hold
          rw [hfm]
          simp only [List.append_assoc, List.singleton_append,
            List.cons_append] at hold ⊢
          exact hold
        | false =>
          have hsplit : List.filter (fun p => p.1 == i') (m :: rest) =
              List.filter (fun p => p.1 == i') rest := by
            simp [List.filter_cons, hm]
          have hfm : List.filter (fun p => p.1 == i') [m] = [] := by
            simp [List.filter_cons, hm]
          rw [hsplit] at hold
          rw [hfm, List.append_nil]
          exact hold
      · intro hcd
        rw [hc] at hcd
        cases hcd
      · show (s.received ++ [m]).length + rest.length +
          ((s.rem.map List.length)).sum = 9
        rw [hbf] at h6
        simp only [List.length_append, List.length_singleton,
          List.length_cons, List.length_nil] at h6 ⊢
        omega
      · intro p hp
        exact h7 p (by rw [hbf]; exact List.mem_cons_of_mem m hp)
  | endloop =>
    simp only [enabled, Bool.and_eq_true, Bool.not_eq_true'] at he
    obtain ⟨⟨hc, hbe⟩, hall⟩ := he
    have hbf : s.buf = [] := by
      cases h : s.buf with
      | nil => rfl
      | cons a b => rw [h] at hbe; simp at hbe
    have hstep : step s .endloop = { s with cdone := true } := rfl
    rw [hstep]
    exact ⟨fun i' hi' => h1 i' hi', h2, h3, fun i'' hi'' hp => h4 i'' hi'' hp,
      fun _ => ⟨hbf, hall⟩, h6, fun p hp => h7 p hp⟩
theorem fanInv_run {s : St} {tr : List Ev} (hI : Inv s) (hv : valid s tr = true) :
    Inv (run s tr) := by
  induction tr generalizing s with
  | nil => exact hI
  | cons e tr ih =>
    simp only [valid, Bool.and_eq_true] at hv
    exact ih (fanInv_step hI hv.1) hv.2

/-- In a maximal reachable state main has received all nine messages, the
messages of each producer appear in send order, and the receive loop has
ended on closure. -/
theorem fan_stuck_spec {s : St} (hI : Inv s) (hs : stuck s = true) :
    s.received.length = 9 ∧
    (∀ i, i < 3 →
      s.received.filter (fun p => p.1 == i) = [(i, 0), (i, 1), (i, 2)]) ∧
    s.cdone = true := by
  obtain ⟨h1, h2, h3, h4, h5, h6, h7⟩ := hI
  simp only [stuck, Bool.not_eq_true', Bool.or_eq_false_iff] at hs
  obtain ⟨⟨⟨⟨⟨⟨⟨hs0, hs1⟩, hs2⟩, hf0⟩, hf1⟩, hf2⟩, hrecv⟩, hend⟩ := hs
  have hrem : ∀ i, i < 3 → s.rem.getD i [] = [] := by
    intro i hi
    have hsend : enabled s (.send i) = false := by
      interval_cases i
      · exact hs0
      · exact hs1
      · exact hs2
    rw [enabled] at hsend
    cases h : s.rem.getD i [] with
    | nil => rfl
    | cons a b => rw [h] at hsend; simp at hsend
  have hpd : ∀ i, i < 3 → s.pdone.getD i true = true := by
    intro i hi
    have hfin : enabled s (.finish i) = false := by
      interval_cases i
      · exact hf0
      · exact hf1
      · exact hf2
    rw [enabled, hrem i hi] at hfin
    simpa using hfin
  have hpdone : s.pdone = [true, true, true] :=
    list3_of_getD s.pdone h3 true true true true (hpd 0 (by omega))
      (hpd 1 (by omega)) (hpd 2 (by omega))
  have hall : s.pdone.all (fun b => b) = true := by simp [hpdone]
  have hcd : s.cdone = true := by
    by_contra hcf
    have hcf' : s.cdone = false := by simpa using hcf
    cases hb : s.buf with
    | nil =>
      rw [enabled, hcf', hb, hall] at hend
      simp at hend
    | cons a b =>
      rw [enabled, hcf', hb] at hrecv
      simp at hrecv
  have hbf : s.buf = [] := (h5 hcd).1
  have hremlist : s.rem = [[], [], []] :=
    list3_of_getD s.rem h2 [] [] [] [] (hrem 0 (by omega)) (hrem 1 (by omega))
      (hrem 2 (by omega))
  refine ⟨?_, ?_, hcd⟩
  · rw [hbf, hremlist] at h6
    simpa using h6
  · intro i hi
    have := h1 i hi
    rw [hbf, hrem i hi] at this
    simpa using this

theorem fan_fuel_step {s : St} {e : Ev} (he : enabled s e = true) :
    fuel (step s e) < fuel s := by
  cases e with
  | send i =>
    simp only [enabled, Bool.not_eq_true'] at he
    cases hri : s.rem.getD i [] with
    | nil => rw [hri] at he; simp at he
    | cons j rest =>
      have hsum := sum_map_length_set s.rem i j rest hri
      have hstep : step s (.send i) =
          { s with rem := s.rem.set i rest, buf := s.buf ++ [(i, j)] } := by
        simp only [step, hri]
      rw [hstep]
      simp only [fuel, List.length_append, List.length_singleton]
      omega
  | finish i =>
    simp only [enabled, Bool.and_eq_true, Bool.not_eq_true'] at he
    have hcount := count_false_set_true s.pdone i he.2
    have hstep : step s (.finish i) = { s with pdone := s.pdone.set i true } := rfl
    rw [hstep]
    simp only [fuel]
    omega
  | recv =>
    simp only [enabled, Bool.and_eq_true, Bool.not_eq_true'] at he
    obtain ⟨hc, hbe⟩ := he
    cases hbf : s.buf with
    | nil => rw [hbf] at hbe; simp at hbe
    | cons m rest =>
      have hstep : step s .recv =
          { s with buf := rest, received := s.received ++ [m] } := by
        simp only [step, hbf]
      rw [hstep]
      simp only [fuel]
      rw [hbf]
      simp only [List.length_cons]
      omega
  | endloop =>
    simp only [enabled, Bool.and_eq_true, Bool.not_eq_true'] at he
    have hstep : step s .endloop = { s with cdone := true } := rfl
    rw [hstep]
    have ha : fuel { s with cdone := true } =
        2 * (s.rem.map List.length).sum + s.buf.length + s.pdone.count false := by
      simp [fuel]
    have hb : fuel s =
        2 * (s.rem.map List.length).sum + s.buf.length + s.pdone.count false + 1 := by
      simp [fuel, he.1.1]
    omega

theorem fan_valid_length {s : St} {tr : List Ev} (hv : valid s tr = true) :
    tr.length ≤ fuel s := by
  induction tr generalizing s with
  | nil => simp
  | cons e tr ih =>
    simp only [valid, Bool.and_eq_true] at hv
    have h1 := ih hv.2
    have h2 := fan_fuel_step hv.1
    simp only [List.length_cons]
    omega

end FanIn

/-! ### Barrier lemmas -/

namespace BarrierSync

theorem valid_take {s : St} {tr : List Ev} (hv : valid s tr = true) (p : Nat) :
    valid s (tr.take p) = true := by
  induction tr generalizing s p with
  | nil => simp [List.take_nil, valid]
  | cons e t ih =>
    cases p with
    | zero => rfl
    | succ p =>
      simp only [valid, Bool.and_eq_true] at hv
      simp only [List.take_succ_cons, valid, Bool.and_eq_true]
      exact ⟨hv.1, ih hv.2 p⟩

/-- The event at position `p` of a valid schedule is enabled in the state
reached by the prefix before it. -/
theorem get?_enabled {s : St} {tr : List Ev} (hv : valid s tr = true)
    {p : Nat} {e : Ev} (hp : tr.get? p = some e) :
    enabled (run s (tr.take p)) e = true := by
  induction tr generalizing s p with
  | nil => cases hp
  | cons f t ih =>
    simp only [valid, Bool.and_eq_true] at hv
    cases p with
    | zero =>
      cases hp
      exact hv.1
    | succ p =>
      simp only [List.get?_cons_succ] at hp
      simp only [List.take_succ_cons]
      exact ih hv.2 hp

/-- A participant's phase is nonzero only if it was nonzero initially or an
`arrive` event for it occurred in the schedule. -/
theorem arrived_of_ne_zero {s : St} {tr : List Ev} (hv : valid s tr = true) :
    ∀ j, (run s tr).phase.getD j 9 ≠ 0 →
      s.phase.getD j 9 ≠ 0 ∨ Ev.arrive j ∈ tr := by
  induction tr generalizing s with
  | nil => intro j hj; exact Or.inl hj
  | cons e t ih =>
    simp only [valid, Bool.and_eq_true] at hv
    intro j hj
    rcases ih hv.2 j hj with h | h
    · cases e with
      | arrive k =>
        by_cases hk : k = j
        · subst hk
          exact Or.inr (List.mem_cons_self _ _)
        · left
          rw [show step s (.arrive k) = { phase := s.phase.set k 1 } from rfl] at h
          rwa [getD_set_ne s.phase k j 1 9 hk] at h
      | pass k =>
        by_cases hk : k = j
        · subst hk
          left
          have he := hv.1
          simp only [enabled, Bool.and_eq_true, beq_iff_eq] at he
          rw [he.1]
          omega
        · left
          rw [show step s (.pass k) = { phase := s.phase.set k 2 } from rfl] at h
          rwa [getD_set_ne s.phase k j 2 9 hk] at h
    · exact Or.inr (List.mem_cons_of_mem e h)

theorem run_phase_length {s : St} (tr : List Ev) :
    (run s tr).phase.length = s.phase.length := by
  induction tr generalizing s with
  | nil => rfl
  | cons e t ih =>
    have hstep : (step s e).phase.length = s.phase.length := by
      cases e <;> simp [step, List.length_set]
    rw [show run s (e :: t) = run (step s e) t from rfl, ih, hstep]

theorem all_getD_ne_zero (l : List Nat)
    (hall : l.all (fun q => q != 0) = true) :
    ∀ (i : Nat) (d : Nat), i < l.length → l.getD i d ≠ 0 := by
  induction l with
  | nil => intro i d hi; simp at hi
  | cons a t ih =>
    simp only [List.all_cons, Bool.and_eq_true, bne_iff_ne, ne_eq] at hall
    intro i d hi
    cases i with
    | zero => simpa using hall.1
    | succ i =>
      simp only [List.getD_cons_succ]
      exact ih (by simpa [List.all_eq_true] using hall.2) i d (by simpa using hi)

end BarrierSync

/-! ### Claim theorems -/

/-- C2: in the worker pool vignette, (a) no valid schedule exceeds 16 events
— the vignette cannot hang — and (b) every maximal execution ends with the
six job ids processed in send order [1, 2, 3, 4, 5, 6] (hence each job id in
1..=6 received by exactly one worker, none dropped, none double-processed),
every processing worker being one of the three pool workers, and all three
workers terminated after observing the closure error, so the joins
complete. -/
theorem C2_worker_pool_exactly_once :
    (∀ tr : List Pool.Ev, Pool.valid Pool.init tr = true → tr.length ≤ 16) ∧
    (∀ tr : List Pool.Ev, Pool.valid Pool.init tr = true →
      Pool.stuck (Pool.run Pool.init tr) = true →
      (Pool.run Pool.init tr).processed.map Prod.snd = [1, 2, 3, 4, 5, 6] ∧
      (Pool.run Pool.init tr).alive = [false, false, false] ∧
      ∀ p ∈ (Pool.run Pool.init tr).processed, p.1 < 3) := by
  constructor
  · intro tr hv
    have h1 := Pool.pool_valid_length hv
    have h2 : Pool.fuel Pool.init = 16 := by decide
    omega
  · intro tr hv hs
    exact Pool.pool_stuck_spec (Pool.poolInv_run Pool.poolInv_init hv) hs

/-- Witness for C2: a concrete complete schedule in which the three workers
take turns pulling jobs and then each observes closure and shuts down. -/
theorem C2_worker_pool_exactly_once_witness :
    Pool.valid Pool.init
      [Pool.Ev.send, Pool.Ev.send, Pool.Ev.send, Pool.Ev.send, Pool.Ev.send,
       Pool.Ev.send, Pool.Ev.close, Pool.Ev.recv 0, Pool.Ev.recv 1,
       Pool.Ev.recv 2, Pool.Ev.recv 0, Pool.Ev.recv 1, Pool.Ev.recv 2,
       Pool.Ev.recv 0, Pool.Ev.recv 1, Pool.Ev.recv 2] = true ∧
    (Pool.run Pool.init
      [Pool.Ev.send, Pool.Ev.send, Pool.Ev.send, Pool.Ev.send, Pool.Ev.send,
       Pool.Ev.send, Pool.Ev.close, Pool.Ev.recv 0, Pool.Ev.recv 1,
       Pool.Ev.recv 2, Pool.Ev.recv 0, Pool.Ev.recv 1, Pool.Ev.recv 2,
       Pool.Ev.recv 0, Pool.Ev.recv 1, Pool.Ev.recv 2]).processed.map Prod.snd =
      [1, 2, 3, 4, 5, 6] ∧
    (Pool.run Pool.init
      [Pool.Ev.send, Pool.Ev.send, Pool.Ev.send, Pool.Ev.send, Pool.Ev.send,
       Pool.Ev.send, Pool.Ev.close, Pool.Ev.recv 0, Pool.Ev.recv 1,
       Pool.Ev.recv 2, Pool.Ev.recv 0, Pool.Ev.recv 1, Pool.Ev.recv 2,
       Pool.Ev.recv 0, Pool.Ev.recv 1, Pool.Ev.recv 2]).alive =
      [false, false, false] := by
  have hv : Pool.valid Pool.init
      [Pool.Ev.send, Pool.Ev.send, Pool.Ev.send, Pool.Ev.send, Pool.Ev.send,
       Pool.Ev.send, Pool.Ev.close, Pool.Ev.recv 0, Pool.Ev.recv 1,
       Pool.Ev.recv 2, Pool.Ev.recv 0, Pool.Ev.recv 1, Pool.Ev.recv 2,
       Pool.Ev.recv 0, Pool.Ev.recv 1, Pool.Ev.recv 2] = true := by decide
  have hs : Pool.stuck (Pool.run Pool.init
      [Pool.Ev.send, Pool.Ev.send, Pool.Ev.send, Pool.Ev.send, Pool.Ev.send,
       Pool.Ev.send, Pool.Ev.close, Pool.Ev.recv 0, Pool.Ev.recv 1,
       Pool.Ev.recv 2, Pool.Ev.recv 0, Pool.Ev.recv 1, Pool.Ev.recv 2,
       Pool.Ev.recv 0, Pool.Ev.recv 1, Pool.Ev.recv 2]) = true := by decide
  exact ⟨hv, (C2_worker_pool_exactly_once.2 _ hv hs).1,
    (C2_worker_pool_exactly_once.2 _ hv hs).2.1⟩

/-- C1: in the shared-counter mutex vignette, for every schedule of the
lock-guarded critical sections after which all 5 worker threads have
completed their 1000 increments (so main's joins have all returned), the
shared counter reads exactly 5 × 1000 = 5000 — no lost updates. -/
theorem C1_mutex_counter_exact (tr : List Nat)
    (h : (MutexCounter.run MutexCounter.init tr).rem.sum = 0) :
    (MutexCounter.run MutexCounter.init tr).counter = 5000 := by
  have hinv := MutexCounter.run_invariant tr MutexCounter.init
  have h0 : MutexCounter.init.counter = 0 := rfl
  have h1 : MutexCounter.init.rem.sum = 5000 := by decide
  omega

/-- Witness for C1: the sequential schedule `wtrace` completes all five
workers and the theorem yields the exact final value 5000. -/
theorem C1_mutex_counter_exact_witness :
    (MutexCounter.run MutexCounter.init MutexCounter.wtrace).rem.sum = 0 ∧
    (MutexCounter.run MutexCounter.init MutexCounter.wtrace).counter = 5000 :=
  ⟨MutexCounter.wtrace_drains,
    C1_mutex_counter_exact MutexCounter.wtrace MutexCounter.wtrace_drains⟩

/-- C3: in the single-producer channel vignette, every maximal execution
(a valid schedule after which no event is enabled) ends with main having
received exactly ["Hello", "from", "the", "thread"] in order — no loss, no
duplication — with the producer's sender dropped (`pdone`) and the receive
loop ended on channel closure (`cdone`). -/
theorem C3_channel_fifo_exact (tr : List SPChan.Ev)
    (hv : SPChan.valid (SPChan.init SPChan.helloMsgs) tr = true)
    (hs : SPChan.stuck (SPChan.run (SPChan.init SPChan.helloMsgs) tr) = true) :
    (SPChan.run (SPChan.init SPChan.helloMsgs) tr).received = SPChan.helloMsgs ∧
    (SPChan.run (SPChan.init SPChan.helloMsgs) tr).pdone = true ∧
    (SPChan.run (SPChan.init SPChan.helloMsgs) tr).cdone = true :=
  SPChan.chan_stuck_spec (SPChan.chanInv_run (SPChan.chanInv_init _) hv) hs

/-- Witness for C3: a concrete complete schedule of the vignette. -/
theorem C3_channel_fifo_exact_witness :
    SPChan.valid (SPChan.init SPChan.helloMsgs)
      [SPChan.Ev.send, SPChan.Ev.send, SPChan.Ev.send, SPChan.Ev.send,
       SPChan.Ev.close, SPChan.Ev.recv, SPChan.Ev.recv, SPChan.Ev.recv,
       SPChan.Ev.recv, SPChan.Ev.finish] = true ∧
    (SPChan.run (SPChan.init SPChan.helloMsgs)
      [SPChan.Ev.send, SPChan.Ev.send, SPChan.Ev.send, SPChan.Ev.send,
       SPChan.Ev.close, SPChan.Ev.recv, SPChan.Ev.recv, SPChan.Ev.recv,
       SPChan.Ev.recv, SPChan.Ev.finish]).received = SPChan.helloMsgs := by
  have hv : SPChan.valid (SPChan.init SPChan.helloMsgs)
      [SPChan.Ev.send, SPChan.Ev.send, SPChan.Ev.send, SPChan.Ev.send,
       SPChan.Ev.close, SPChan.Ev.recv, SPChan.Ev.recv, SPChan.Ev.recv,
       SPChan.Ev.recv, SPChan.Ev.finish] = true := by decide
  have hs : SPChan.stuck (SPChan.run (SPChan.init SPChan.helloMsgs)
      [SPChan.Ev.send, SPChan.Ev.send, SPChan.Ev.send, SPChan.Ev.send,
       SPChan.Ev.close, SPChan.Ev.recv, SPChan.Ev.recv, SPChan.Ev.recv,
       SPChan.Ev.recv, SPChan.Ev.finish]) = true := by decide
  exact ⟨hv, (C3_channel_fifo_exact _ hv hs).1⟩

/-- C5: in the producer-consumer vignette, (a) no valid schedule exceeds 22
events — the vignette terminates — and (b) every maximal execution ends with
the consumer having received exactly "Item 1" .. "Item 10" in order, the
producer having finished and dropped its sender, and the consumer's loop
having ended on closure, i.e. both joins complete. -/
theorem C5_producer_consumer_exact :
    (∀ tr : List SPChan.Ev,
      SPChan.valid (SPChan.init SPChan.itemMsgs) tr = true → tr.length ≤ 22) ∧
    (∀ tr : List SPChan.Ev,
      SPChan.valid (SPChan.init SPChan.itemMsgs) tr = true →
      SPChan.stuck (SPChan.run (SPChan.init SPChan.itemMsgs) tr) = true →
      (SPChan.run (SPChan.init SPChan.itemMsgs) tr).received = SPChan.itemMsgs ∧
      (SPChan.run (SPChan.init SPChan.itemMsgs) tr).pdone = true ∧
      (SPChan.run (SPChan.init SPChan.itemMsgs) tr).cdone = true) := by
  constructor
  · intro tr hv
    have h1 := SPChan.chan_valid_length hv
    have h2 : SPChan.fuel (SPChan.init SPChan.itemMsgs) = 22 := by decide
    omega
  · intro tr hv hs
    exact SPChan.chan_stuck_spec (SPChan.chanInv_run (SPChan.chanInv_init _) hv) hs

/-- Witness for C5: a concrete complete schedule of the vignette. -/
theorem C5_producer_consumer_exact_witness :
    SPChan.valid (SPChan.init SPChan.itemMsgs)
      (List.replicate 10 SPChan.Ev.send ++ [SPChan.Ev.close] ++
       List.replicate 10 SPChan.Ev.recv ++ [SPChan.Ev.finish]) = true ∧
    (List.replicate 10 SPChan.Ev.send ++ [SPChan.Ev.close] ++
       List.replicate 10 SPChan.Ev.recv ++ [SPChan.Ev.finish]).length ≤ 22 ∧
    (SPChan.run (SPChan.init SPChan.itemMsgs)
      (List.replicate 10 SPChan.Ev.send ++ [SPChan.Ev.close] ++
       List.replicate 10 SPChan.Ev.recv ++ [SPChan.Ev.finish])).received =
      SPChan.itemMsgs := by
  have hv : SPChan.valid (SPChan.init SPChan.itemMsgs)
      (List.replicate 10 SPChan.Ev.send ++ [SPChan.Ev.close] ++
       List.replicate 10 SPChan.Ev.recv ++ [SPChan.Ev.finish]) = true := by decide
  have hs : SPChan.stuck (SPChan.run (SPChan.init SPChan.itemMsgs)
      (List.replicate 10 SPChan.Ev.send ++ [SPChan.Ev.close] ++
       List.replicate 10 SPChan.Ev.recv ++ [SPChan.Ev.finish])) = true := by decide
  exact ⟨hv, C5_producer_consumer_exact.1 _ hv, (C5_producer_consumer_exact.2 _ hv hs).1⟩

/-- C9: the `fibonacci` function of the concurrent-calculations vignette is
total (it is a well-founded recursive definition), satisfies its three
defining equations, and at the vignette's inputs 35, 36, 37, 38 returns
9227465, 14930352, 24157817 and 39088169; every value computed for inputs up
to 38 is below 2^64, so the `u64` arithmetic never overflows. -/
theorem C9_fibonacci_spec :
    fibonacci 0 = 0 ∧ fibonacci 1 = 1 ∧
    (∀ n, 2 ≤ n → fibonacci n = fibonacci (n - 1) + fibonacci (n - 2)) ∧
    fibonacci 35 = 9227465 ∧ fibonacci 36 = 14930352 ∧
    fibonacci 37 = 24157817 ∧ fibonacci 38 = 39088169 ∧
    (∀ n, n ≤ 38 → fibonacci n < 2 ^ 64) := by
  have h35 : fibonacci 35 = 9227465 := by rw [← fibFast_eq]; decide
  have h36 : fibonacci 36 = 14930352 := by rw [← fibFast_eq]; decide
  have h37 : fibonacci 37 = 24157817 := by rw [← fibFast_eq]; decide
  have h38 : fibonacci 38 = 39088169 := by rw [← fibFast_eq]; decide
  refine ⟨rfl, rfl, ?_, h35, h36, h37, h38, ?_⟩
  · intro n hn
    obtain ⟨m, rfl⟩ : ∃ m, n = m + 2 := ⟨n - 2, by omega⟩
    show fibonacci (m + 2) = fibonacci (m + 1) + fibonacci m
    simp [fibonacci]
  · intro n hn
    have h1 : fibonacci n ≤ fibonacci 38 := fibonacci_mono hn
    have h2 : (2 : Nat) ^ 64 = 18446744073709551616 := by norm_num
    omega

/-- Witness for C9: the recurrence instantiated at 10 and the overflow bound
instantiated at 35. -/
theorem C9_fibonacci_spec_witness :
    fibonacci 10 = fibonacci 9 + fibonacci 8 ∧ fibonacci 35 < 2 ^ 64 :=
  ⟨C9_fibonacci_spec.2.2.1 10 (by norm_num),
   C9_fibonacci_spec.2.2.2.2.2.2.2 35 (by norm_num)⟩

/-- C10: in the concurrent data-processing vignette the chunk ranges starting
at 0, 3, 6, 9 partition the vector [1,...,10]; whatever order the four
threads push their chunk sums, the results vector is a permutation of
[6, 15, 24, 10] and its total is 55, the sum of the whole vector. -/
theorem C10_chunk_partition (order : List Nat) (h : order.Perm Chunks.chunkStarts) :
    (Chunks.resultsFor order).Perm [6, 15, 24, 10] ∧
    (Chunks.resultsFor order).sum = 55 ∧ Chunks.data.sum = 55 := by
  have hmap : Chunks.resultsFor Chunks.chunkStarts = [6, 15, 24, 10] := by decide
  have hp : (Chunks.resultsFor order).Perm (Chunks.resultsFor Chunks.chunkStarts) :=
    h.map Chunks.chunkSum
  rw [hmap] at hp
  refine ⟨hp, ?_, by decide⟩
  rw [hp.sum_eq]
  decide

/-- Witness for C10: a concrete out-of-order push order. -/
theorem C10_chunk_partition_witness :
    ([9, 0, 6, 3] : List Nat).Perm Chunks.chunkStarts ∧
    (Chunks.resultsFor [9, 0, 6, 3]).Perm [6, 15, 24, 10] ∧
    (Chunks.resultsFor [9, 0, 6, 3]).sum = 55 := by
  have hp : ([9, 0, 6, 3] : List Nat).Perm Chunks.chunkStarts := by decide
  exact ⟨hp, (C10_chunk_partition [9, 0, 6, 3] hp).1, (C10_chunk_partition [9, 0, 6, 3] hp).2.1⟩

/-- C4: in the fan-in vignette with 3 producers of 3 messages each, (a) no
valid schedule exceeds 22 events — the receive loop terminates — and
(b) every maximal execution ends with exactly 3 × 3 = 9 messages received
and, for each producer `i`, the messages "Producer i message 0",
"Producer i message 1", "Producer i message 2" appearing in that relative
order in the received stream (cross-producer interleaving unconstrained). -/
theorem C4_fan_in_count_and_order :
    (∀ tr : List FanIn.Ev, FanIn.valid FanIn.init tr = true → tr.length ≤ 22) ∧
    (∀ tr : List FanIn.Ev, FanIn.valid FanIn.init tr = true →
      FanIn.stuck (FanIn.run FanIn.init tr) = true →
      (FanIn.run FanIn.init tr).received.length = 9 ∧
      (∀ i, i < 3 →
        (((FanIn.run FanIn.init tr).received.filter (fun p => p.1 == i)).map
            (fun p => FanIn.producerMsg p.1 p.2)) =
          [FanIn.producerMsg i 0, FanIn.producerMsg i 1, FanIn.producerMsg i 2])) := by
  constructor
  · intro tr hv
    have h1 := FanIn.fan_valid_length hv
    have h2 : FanIn.fuel FanIn.init = 22 := by decide
    omega
  · intro tr hv hs
    obtain ⟨hlen, hfil, hcd⟩ := FanIn.fan_stuck_spec (FanIn.fanInv_run FanIn.fanInv_init hv) hs
    refine ⟨hlen, ?_⟩
    intro i hi
    rw [hfil i hi]
    rfl

/-- Witness for C4: a concrete complete schedule of the vignette. -/
theorem C4_fan_in_count_and_order_witness :
    FanIn.valid FanIn.init
      [FanIn.Ev.send 0, FanIn.Ev.send 1, FanIn.Ev.send 2, FanIn.Ev.send 0,
       FanIn.Ev.send 1, FanIn.Ev.send 2, FanIn.Ev.send 0, FanIn.Ev.send 1,
       FanIn.Ev.send 2, FanIn.Ev.finish 0, FanIn.Ev.finish 1,
       FanIn.Ev.finish 2, FanIn.Ev.recv, FanIn.Ev.recv, FanIn.Ev.recv,
       FanIn.Ev.recv, FanIn.Ev.recv, FanIn.Ev.recv, FanIn.Ev.recv,
       FanIn.Ev.recv, FanIn.Ev.recv, FanIn.Ev.endloop] = true ∧
    (FanIn.run FanIn.init
      [FanIn.Ev.send 0, FanIn.Ev.send 1, FanIn.Ev.send 2, FanIn.Ev.send 0,
       FanIn.Ev.send 1, FanIn.Ev.send 2, FanIn.Ev.send 0, FanIn.Ev.send 1,
       FanIn.Ev.send 2, FanIn.Ev.finish 0, FanIn.Ev.finish 1,
       FanIn.Ev.finish 2, FanIn.Ev.recv, FanIn.Ev.recv, FanIn.Ev.recv,
       FanIn.Ev.recv, FanIn.Ev.recv, FanIn.Ev.recv, FanIn.Ev.recv,
       FanIn.Ev.recv, FanIn.Ev.recv, FanIn.Ev.endloop]).received.length = 9 := by
  have hv : FanIn.valid FanIn.init
      [FanIn.Ev.send 0, FanIn.Ev.send 1, FanIn.Ev.send 2, FanIn.Ev.send 0,
       FanIn.Ev.send 1, FanIn.Ev.send 2, FanIn.Ev.send 0, FanIn.Ev.send 1,
       FanIn.Ev.send 2, FanIn.Ev.finish 0, FanIn.Ev.finish 1,
       FanIn.Ev.finish 2, FanIn.Ev.recv, FanIn.Ev.recv, FanIn.Ev.recv,
       FanIn.Ev.recv, FanIn.Ev.recv, FanIn.Ev.recv, FanIn.Ev.recv,
       FanIn.Ev.recv, FanIn.Ev.recv, FanIn.Ev.endloop] = true := by decide
  have hs : FanIn.stuck (FanIn.run FanIn.init
      [FanIn.Ev.send 0, FanIn.Ev.send 1, FanIn.Ev.send 2, FanIn.Ev.send 0,
       FanIn.Ev.send 1, FanIn.Ev.send 2, FanIn.Ev.send 0, FanIn.Ev.send 1,
       FanIn.Ev.send 2, FanIn.Ev.finish 0, FanIn.Ev.finish 1,
       FanIn.Ev.finish 2, FanIn.Ev.recv, FanIn.Ev.recv, FanIn.Ev.recv,
       FanIn.Ev.recv, FanIn.Ev.recv, FanIn.Ev.recv, FanIn.Ev.recv,
       FanIn.Ev.recv, FanIn.Ev.recv, FanIn.Ev.endloop]) = true := by decide
  exact ⟨hv, (C4_fan_in_count_and_order.2 _ hv hs).1⟩

/-- C6: in the barrier vignette, in every valid execution, if `pass i`
(participant `i`'s `barrier.wait()` returning, before its "passed barrier,
doing final work") occurs at position `p` of the schedule, then every
participant's `arrive` (its "waiting at barrier" followed by `wait()`)
occurs strictly before position `p`: no participant passes the barrier
until all three have reached it. -/
theorem C6_barrier_blocks_until_all_arrive (tr : List BarrierSync.Ev)
    (hv : BarrierSync.valid BarrierSync.init tr = true)
    (p : Nat) (i : Nat) (hp : tr.get? p = some (BarrierSync.Ev.pass i)) :
    ∀ j, j < 3 → BarrierSync.Ev.arrive j ∈ tr.take p := by
  intro j hj
  have hvt := BarrierSync.valid_take hv p
  have hen := BarrierSync.get?_enabled hv hp
  simp only [BarrierSync.enabled, Bool.and_eq_true] at hen
  have hlen : (BarrierSync.run BarrierSync.init (tr.take p)).phase.length = 3 := by
    rw [BarrierSync.run_phase_length]
    rfl
  have hne : (BarrierSync.run BarrierSync.init (tr.take p)).phase.getD j 9 ≠ 0 :=
    BarrierSync.all_getD_ne_zero _ hen.2 j 9 (by omega)
  rcases BarrierSync.arrived_of_ne_zero hvt j hne with h | h
  · interval_cases j <;> simp [BarrierSync.init] at h
  · exact h

/-- Witness for C6: a concrete schedule in which participant 2 passes the
barrier at position 3, after all three arrivals. -/
theorem C6_barrier_blocks_until_all_arrive_witness :
    BarrierSync.valid BarrierSync.init
      [BarrierSync.Ev.arrive 0, BarrierSync.Ev.arrive 1,
       BarrierSync.Ev.arrive 2, BarrierSync.Ev.pass 2,
       BarrierSync.Ev.pass 0, BarrierSync.Ev.pass 1] = true ∧
    BarrierSync.Ev.arrive 1 ∈
      ([BarrierSync.Ev.arrive 0, BarrierSync.Ev.arrive 1,
        BarrierSync.Ev.arrive 2, BarrierSync.Ev.pass 2,
        BarrierSync.Ev.pass 0, BarrierSync.Ev.pass 1].take 3) := by
  have hv : BarrierSync.valid BarrierSync.init
      [BarrierSync.Ev.arrive 0, BarrierSync.Ev.arrive 1,
       BarrierSync.Ev.arrive 2, BarrierSync.Ev.pass 2,
       BarrierSync.Ev.pass 0, BarrierSync.Ev.pass 1] = true := by decide
  exact ⟨hv, C6_barrier_blocks_until_all_arrive _ hv 3 2 rfl 1 (by omega)⟩

/-- C7 counterexample: the claim says that in every vignette a panicking
task is surfaced to the joiner as a failure result rather than crashing the
process, but the vignettes other than the error-handling one join with
`handle.join().unwrap()` (e.g. the Basic Threads vignette, line 32): an
`Err` join there re-raises the panic in main and aborts the process
(`isSome = false`: the flow does not survive to the next vignette). -/
theorem C7_counterexample_unwrap_crashes :
    (ErrVig.unwrapJoin
      (Except.error "deliberate panic" : Except String Unit)).isSome = false := by
  decide

/-- C7 (amended): in the error-handling vignette — the one vignette that
inspects join results — task 1's deliberate panic is reported as a failure
while the successes of tasks 0 and 2 are still collected, and the joining
loop handles all three results, so the flow continues normally; the other
vignettes join with `unwrap`, which would abort the process on a panicking
task, but none of their tasks panics. -/
theorem C7_error_vignette_reports :
    ErrVig.joinReports =
      ["Thread 0: Thread 0 completed successfully",
       "Thread 1 panicked",
       "Thread 2: Thread 2 completed successfully"] ∧
    ErrVig.joinReports.length = 3 := by
  constructor
  · decide
  · decide

/-- C8 counterexample: the claim says a worker's abnormal abort is reported
and does not halt collection of the remaining workers' results, but the
Multiple Threads vignette collects with `handle.join().unwrap()`: with
worker 1 aborted, unwrap panics the initiator and the collection yields no
result list at all — worker 2's result is never collected. -/
theorem C8_counterexample_unwrap_halts_collection :
    MultiVig.collectUnwrap
      [Except.ok "Result from thread 0", Except.error "worker aborted",
       Except.ok "Result from thread 2"] = none := by
  decide

/-- C8 (amended): the Multiple Threads vignette joins each worker with
`unwrap`, so a worker failure would panic the initiator and halt
collection; in the program as written every worker returns successfully
and the initiator collects all three results in spawn order. -/
theorem C8_all_workers_collected :
    MultiVig.collectUnwrap ((List.range 3).map MultiVig.workerOutcome) =
      some ["Result from thread 0", "Result from thread 1",
            "Result from thread 2"] := by
  decide

end Rustler
